import Mathlib

/-!
Verification of the samplevoicebot inline voice-synthesis pipeline.

Text is modelled as `List Char` (Python `str` by code points). Pure parts of
the Python source are translated into Lean functions; the stateful voice
cache is modelled by explicit state passing; backend calls (AWS Polly, S3,
the language detector, the Telegram job queue) are parameters or `Except`
values describing the outcome of the external call.
-/

/-- Python string comparison, restricted to `<=`: lexicographic order on the
code points of the two strings (used by `list.sort()` on `str`). -/
def strLe : List Char → List Char → Bool
  | [], _ => true
  | _ :: _, [] => false
  | a :: as, b :: bs =>
    if a.toNat < b.toNat then true
    else if b.toNat < a.toNat then false
    else strLe as bs

/-- Insert a string into a sorted list of strings, keeping it sorted. -/
def insertSorted (a : List Char) : List (List Char) → List (List Char)
  | [] => [a]
  | b :: bs => if strLe a b then a :: b :: bs else b :: insertSorted a bs

/-- Model of Python `list.sort()` on a list of strings. Python's sort is a
stable sort under the total order `strLe`; since `strLe` is antisymmetric,
every sorting algorithm produces the same output, so insertion sort is an
exact model of the observable behaviour. -/
def sortStrs : List (List Char) → List (List Char)
  | [] => []
  | a :: as => insertSorted a (sortStrs as)

/-- The list comprehension inside PollySynthesizer.__choose_voices__:
voice ids of the catalog entries whose gender equals the given gender. -/
def candidate_ids (voices : List (List Char × List Char)) (gender : List Char) :
    List (List Char) :=
  (voices.filter (fun v => v.2 == gender)).map (fun v => v.1)

/-- PollySynthesizer.__choose_voices__ from src/synthesizer/pollysynthesizer.py:
for each gender in order, sort the candidate voice ids and append the first
one when the candidate list is nonempty. -/
def choose_voices (voices : List (List Char × List Char))
    (genders : List (List Char)) : List (List Char) :=
  genders.foldl (fun result gender =>
    match sortStrs (candidate_ids voices gender) with
    | [] => result
    | v0 :: _ => result ++ [v0]) []

/-- Specification-side function: the minimum of a list of strings under the
lexicographic order, `none` for the empty list. -/
def minVoice : List (List Char) → Option (List Char)
  | [] => none
  | v :: vs => some (vs.foldl (fun m x => if strLe x m then x else m) v)

theorem char_eq_of_toNat_eq {x y : Char} (h : x.toNat = y.toNat) : x = y :=
  Char.ext (UInt32.toNat.inj h)

theorem strLe_refl (a : List Char) : strLe a a = true := by
  induction a with
  | nil => rfl
  | cons x xs ih => simp [strLe, ih]

theorem strLe_total (a b : List Char) : strLe a b = true ∨ strLe b a = true := by
  induction a generalizing b with
  | nil => exact Or.inl rfl
  | cons x xs ih =>
    cases b with
    | nil => exact Or.inr rfl
    | cons y ys =>
      by_cases hxy : x.toNat < y.toNat
      · left; simp [strLe, hxy]
      · by_cases hyx : y.toNat < x.toNat
        · right; simp [strLe, hyx]
        · rcases ih ys with h | h
          · left; simp [strLe, hxy, hyx, h]
          · right; simp [strLe, hxy, hyx, h]

theorem strLe_antisymm {a b : List Char} (hab : strLe a b = true)
    (hba : strLe b a = true) : a = b := by
  induction a generalizing b with
  | nil =>
    cases b with
    | nil => rfl
    | cons y ys => simp [strLe] at hba
  | cons x xs ih =>
    cases b with
    | nil => simp [strLe] at hab
    | cons y ys =>
      by_cases hxy : x.toNat < y.toNat
      · simp [strLe, Nat.lt_asymm hxy, hxy] at hba
      · by_cases hyx : y.toNat < x.toNat
        · simp [strLe, hxy, hyx] at hab
        · have hx : x = y := char_eq_of_toNat_eq (by omega)
          subst hx
          simp [strLe, hxy, hyx] at hab hba
          rw [ih hab hba]

theorem strLe_trans {a b c : List Char} (hab : strLe a b = true)
    (hbc : strLe b c = true) : strLe a c = true := by
  induction a generalizing b c with
  | nil => rfl
  | cons x xs ih =>
    cases b with
    | nil => simp [strLe] at hab
    | cons y ys =>
      cases c with
      | nil => simp [strLe] at hbc
      | cons z zs =>
        by_cases hxy : x.toNat < y.toNat <;> by_cases hyz : y.toNat < z.toNat
        · have hxz : x.toNat < z.toNat := Nat.lt_trans hxy hyz
          simp [strLe, hxz]
        · by_cases hzy : z.toNat < y.toNat
          · simp [strLe, hyz, hzy] at hbc
          · have : y = z := char_eq_of_toNat_eq (by omega)
            subst this
            simp [strLe, hxy]
        · by_cases hyx : y.toNat < x.toNat
          · simp [strLe, hxy, hyx] at hab
          · have : x = y := char_eq_of_toNat_eq (by omega)
            subst this
            simp [strLe, hyz]
        · by_cases hyx : y.toNat < x.toNat
          · simp [strLe, hxy, hyx] at hab
          · by_cases hzy : z.toNat < y.toNat
            · simp [strLe, hyz, hzy] at hbc
            · have h1 : x = y := char_eq_of_toNat_eq (by omega)
              have h2 : y = z := char_eq_of_toNat_eq (by omega)
              subst h1; subst h2
              simp [strLe, hxy] at hab hbc ⊢
              exact ih hab hbc

theorem insertSorted_perm (a : List Char) (l : List (List Char)) :
    List.Perm (insertSorted a l) (a :: l) := by
  induction l with
  | nil => rfl
  | cons b bs ih =>
    by_cases h : strLe a b = true
    · simp [insertSorted, h]
    · simp only [insertSorted, h, if_false]
      exact List.Perm.trans (List.Perm.cons b ih) (List.Perm.swap a b bs)

theorem sortStrs_perm (l : List (List Char)) : List.Perm (sortStrs l) l := by
  induction l with
  | nil => rfl
  | cons a as ih =>
    exact List.Perm.trans (insertSorted_perm a (sortStrs as)) (List.Perm.cons a ih)

theorem insertSorted_pairwise (a : List Char) {l : List (List Char)}
    (h : l.Pairwise (fun x y => strLe x y = true)) :
    (insertSorted a l).Pairwise (fun x y => strLe x y = true) := by
  induction l with
  | nil => simp [insertSorted]
  | cons b bs ih =>
    rcases List.pairwise_cons.mp h with ⟨hb, hbs⟩
    by_cases hab : strLe a b = true
    · simp only [insertSorted, hab, if_true]
      refine List.pairwise_cons.mpr ⟨?_, h⟩
      intro x hx
      rcases List.mem_cons.mp hx with rfl | hx
      · exact hab
      · exact strLe_trans hab (hb x hx)
    · have hba : strLe b a = true := (strLe_total a b).resolve_left hab
      simp only [insertSorted, hab, if_false]
      refine List.pairwise_cons.mpr ⟨?_, ih hbs⟩
      intro x hx
      have hx' : x ∈ a :: bs := (insertSorted_perm a bs).mem_iff.mp hx
      rcases List.mem_cons.mp hx' with rfl | hx'
      · exact hba
      · exact hb x hx'

theorem sortStrs_pairwise (l : List (List Char)) :
    (sortStrs l).Pairwise (fun x y => strLe x y = true) := by
  induction l with
  | nil => exact List.Pairwise.nil
  | cons a as ih => exact insertSorted_pairwise a ih

theorem sortStrs_head_min {l : List (List Char)} {a : List Char}
    {ts : List (List Char)} (h : sortStrs l = a :: ts) :
    a ∈ l ∧ ∀ x ∈ l, strLe a x = true := by
  have hperm := sortStrs_perm l
  rw [h] at hperm
  constructor
  · exact hperm.mem_iff.mp (List.mem_cons_self a ts)
  · intro x hx
    have hx' : x ∈ a :: ts := hperm.mem_iff.mpr hx
    rcases List.mem_cons.mp hx' with rfl | hx'
    · exact strLe_refl x
    · have hp := sortStrs_pairwise l
      rw [h] at hp
      exact (List.pairwise_cons.mp hp).1 x hx'

theorem minVoice_min {l : List (List Char)} {a : List Char}
    (h : minVoice l = some a) : a ∈ l ∧ ∀ x ∈ l, strLe a x = true := by
  cases l with
  | nil => simp [minVoice] at h
  | cons v vs =>
    simp only [minVoice, Option.some.injEq] at h
    subst h
    have key : ∀ (vs : List (List Char)) (acc : List Char),
        (vs.foldl (fun m x => if strLe x m then x else m) acc = acc ∨
          vs.foldl (fun m x => if strLe x m then x else m) acc ∈ vs) ∧
        strLe (vs.foldl (fun m x => if strLe x m then x else m) acc) acc = true ∧
        ∀ x ∈ vs, strLe (vs.foldl (fun m x => if strLe x m then x else m) acc) x = true := by
      intro vs
      induction vs with
      | nil => exact fun acc => ⟨Or.inl rfl, strLe_refl acc, by simp⟩
      | cons w ws ih =>
        intro acc
        by_cases hw : strLe w acc = true
        · have h1 := ih w
          refine ⟨?_, ?_, ?_⟩
          · simp only [List.foldl_cons, hw, if_true]
            rcases h1.1 with h | h
            · exact Or.inr (by simp [h])
            · exact Or.inr (List.mem_cons_of_mem w h)
          · simp only [List.foldl_cons, hw, if_true]
            exact strLe_trans h1.2.1 hw
          · intro x hx
            simp only [List.foldl_cons, hw, if_true]
            rcases List.mem_cons.mp hx with rfl | hx
            · exact h1.2.1
            · exact h1.2.2 x hx
        · have h1 := ih acc
          have hwa : strLe acc w = true := (strLe_total w acc).resolve_left hw
          refine ⟨?_, ?_, ?_⟩
          · simp only [List.foldl_cons, hw, if_false]
            rcases h1.1 with h | h
            · exact Or.inl h
            · exact Or.inr (List.mem_cons_of_mem w h)
          · simp only [List.foldl_cons, hw, if_false]
            exact h1.2.1
          · intro x hx
            simp only [List.foldl_cons, hw, if_false]
            rcases List.mem_cons.mp hx with rfl | hx
            · exact strLe_trans h1.2.1 hwa
            · exact h1.2.2 x hx
    rcases key vs v with ⟨hmem, hacc, hall⟩
    constructor
    · rcases hmem with h | h
      · rw [h]
        exact List.mem_cons_self v vs
      · exact List.mem_cons_of_mem v h
    · intro x hx
      rcases List.mem_cons.mp hx with rfl | hx
      · exact hacc
      · exact hall x hx

theorem sortStrs_head?_eq_minVoice (l : List (List Char)) :
    (sortStrs l).head? = minVoice l := by
  cases hs : sortStrs l with
  | nil =>
    have : l = [] := by
      have := sortStrs_perm l
      rw [hs] at this
      exact this.symm.eq_nil
    subst this
    rfl
  | cons a ts =>
    have hl : l ≠ [] := by
      intro h
      subst h
      simp [sortStrs] at hs
    cases hm : minVoice l with
    | none =>
      cases l with
      | nil => exact absurd rfl hl
      | cons v vs => simp [minVoice] at hm
    | some m =>
      rcases sortStrs_head_min hs with ⟨haMem, haMin⟩
      rcases minVoice_min hm with ⟨hmMem, hmMin⟩
      have : a = m := strLe_antisymm (haMin m hmMem) (hmMin a haMem)
      simp [this]

theorem choose_voices_eq_filterMap (voices : List (List Char × List Char))
    (genders : List (List Char)) :
    choose_voices voices genders =
      genders.filterMap (fun g => (sortStrs (candidate_ids voices g)).head?) := by
  have aux : ∀ (gs : List (List Char)) (acc : List (List Char)),
      gs.foldl (fun result gender =>
        match sortStrs (candidate_ids voices gender) with
        | [] => result
        | v0 :: _ => result ++ [v0]) acc =
      acc ++ gs.filterMap (fun g => (sortStrs (candidate_ids voices g)).head?) := by
    intro gs
    induction gs with
    | nil => simp
    | cons g gs ih =>
      intro acc
      cases hs : sortStrs (candidate_ids voices g) with
      | nil => simp [List.foldl_cons, hs, ih]
      | cons v0 ts => simp [List.foldl_cons, hs, ih]
  exact aux genders []

/-- Claim C1: for every catalog of (voiceId, gender) pairs and the fixed
gender priority list Female, Male, PollySynthesizer.__choose_voices__ returns,
per gender in that priority order, the lexicographically smallest voice id
among the catalog entries of that gender, skipping genders with no
candidates; and the minimum really is a least element of the candidates. -/
theorem choose_voices_lex_min (voices : List (List Char × List Char)) :
    choose_voices voices ["Female".data, "Male".data] =
      (["Female".data, "Male".data]).filterMap
        (fun g => minVoice (candidate_ids voices g)) ∧
    ∀ g a, minVoice (candidate_ids voices g) = some a →
      a ∈ candidate_ids voices g ∧ ∀ x ∈ candidate_ids voices g, strLe a x = true := by
  constructor
  · rw [choose_voices_eq_filterMap]
    congr 1
    funext g
    exact sortStrs_head?_eq_minVoice (candidate_ids voices g)
  · intro g a h
    exact minVoice_min h

/-- Witness for choose_voices_lex_min: a concrete catalog where the Female
candidates are Joanna and Amy and the Male candidate is Matthew; the inner
hypotheses are discharged at gender Female and candidate Amy. -/
theorem choose_voices_lex_min_witness :
    "Amy".data ∈ candidate_ids
      [("Joanna".data, "Female".data), ("Matthew".data, "Male".data),
        ("Amy".data, "Female".data)] "Female".data ∧
    strLe "Amy".data "Joanna".data = true := by
  have h := (choose_voices_lex_min
    [("Joanna".data, "Female".data), ("Matthew".data, "Male".data),
      ("Amy".data, "Female".data)]).2 "Female".data "Amy".data (by decide)
  exact ⟨h.1, h.2 "Joanna".data (by decide)⟩

/-- The PollySynthesizer voice cache (the __voices__ dict): a mapping from a
language code to the voice list stored for it. A Python dict assignment is
modelled by consing a new binding in front; lookup takes the most recent
binding. -/
abbrev VoiceCache := List (List Char × List (List Char))

/-- Python dict assignment cache[language] = voices. -/
def cacheInsert (cache : VoiceCache) (language : List Char)
    (value : List (List Char)) : VoiceCache :=
  (language, value) :: cache

/-- PollySynthesizer.__fetch_voices__: the describe_voices backend call is
modelled by its outcome, an exception or the catalog of (voiceId, gender)
pairs. On an empty catalog the method itself writes the empty list into the
cache and returns it; on a nonempty catalog it returns the chosen voices
without touching the cache; a backend exception propagates to the caller.
The result carries the possibly updated cache. -/
def fetch_voices (cache : VoiceCache) (language : List Char)
    (response : Except (List Char) (List (List Char × List Char))) :
    Except (List Char) (VoiceCache × List (List Char)) :=
  match response with
  | Except.error e => Except.error e
  | Except.ok voices_list =>
    if voices_list.isEmpty then
      Except.ok (cacheInsert cache language [], [])
    else
      Except.ok (cache, choose_voices voices_list ["Female".data, "Male".data])

/-- PollySynthesizer.voices after the language code has been resolved: if the
code is in the cache, return the cached list; otherwise (under the lock)
fetch, write the result into the cache and return it, and on an exception
log and return the empty list without writing the cache. -/
def voices_method (cache : VoiceCache) (language_code : List Char)
    (response : Except (List Char) (List (List Char × List Char))) :
    VoiceCache × List (List Char) :=
  match cache.lookup language_code with
  | some vs => (cache, vs)
  | none =>
    match fetch_voices cache language_code response with
    | Except.ok (cache2, vs) => (cacheInsert cache2 language_code vs, vs)
    | Except.error _ => (cache, [])

/-- A call to PollySynthesizer.voices reaches the backend fetch exactly when
its (unlocked) cache lookup misses: the code performs no second lookup after
acquiring the lock. -/
def did_fetch (cache : VoiceCache) (language_code : List Char) : Bool :=
  (cache.lookup language_code).isNone

theorem cacheInsert_lookup (cache : VoiceCache) (language : List Char)
    (value : List (List Char)) :
    (cacheInsert cache language value).lookup language = some value := by
  simp [cacheInsert, List.lookup]

/-- Claim C2 counterexample: a catalog in which the same voice id occurs
under both genders makes the resolver return a list with a duplicate voice
identifier, so the claim as stated over every catalog is false. -/
theorem resolver_duplicate_counterexample :
    (voices_method [] "en-US".data
        (Except.ok [("A".data, "Female".data), ("A".data, "Male".data)])).2 =
      ["A".data, "A".data] ∧
    ¬ ((voices_method [] "en-US".data
        (Except.ok [("A".data, "Female".data), ("A".data, "Male".data)])).2).Nodup := by
  constructor
  · decide
  · decide

theorem candidate_ids_mem {catalog : List (List Char × List Char)}
    {g a : List Char} (h : a ∈ candidate_ids catalog g) : (a, g) ∈ catalog := by
  rcases List.mem_map.mp h with ⟨v, hv, rfl⟩
  rcases List.mem_filter.mp hv with ⟨hvMem, hvG⟩
  have : v.2 = g := by
    have := hvG
    simpa using this
  rcases v with ⟨v1, v2⟩
  subst this
  exact hvMem

/-- Claim C2 (amended): provided no voice id occurs in the catalog under two
different genders, the voice list the resolver produces from the catalog has
no duplicate voice identifiers; unconditionally, for every catalog, it has
length at most 2, and once the language is cached every later call returns
the same list and the same cache whatever the backend would answer. -/
theorem resolver_nodup_bounded_stable (cache : VoiceCache) (lang : List Char)
    (catalog : List (List Char × List Char))
    (hmiss : cache.lookup lang = none) :
    ((∀ p ∈ catalog, ∀ q ∈ catalog, p.1 = q.1 → p.2 = q.2) →
      ((voices_method cache lang (Except.ok catalog)).2).Nodup) ∧
    (voices_method cache lang (Except.ok catalog)).2.length ≤ 2 ∧
    ∀ response,
      voices_method (voices_method cache lang (Except.ok catalog)).1 lang response =
        ((voices_method cache lang (Except.ok catalog)).1,
          (voices_method cache lang (Except.ok catalog)).2) := by
  by_cases hcat : catalog.isEmpty
  · have hc : catalog = [] := by
      cases catalog with
      | nil => rfl
      | cons p ps => simp [List.isEmpty] at hcat
    subst hc
    refine ⟨fun _ => by simp [voices_method, hmiss, fetch_voices], ?_, ?_⟩
    · simp [voices_method, hmiss, fetch_voices]
    · intro response
      simp [voices_method, hmiss, fetch_voices, cacheInsert_lookup]
  · have hv : voices_method cache lang (Except.ok catalog) =
        (cacheInsert cache lang (choose_voices catalog ["Female".data, "Male".data]),
          choose_voices catalog ["Female".data, "Male".data]) := by
      simp [voices_method, hmiss, fetch_voices, hcat]
    refine ⟨?_, ?_, ?_⟩
    · intro hg
      have hchoose : ∀ a b, minVoice (candidate_ids catalog "Female".data) = some a →
          minVoice (candidate_ids catalog "Male".data) = some b → a ≠ b := by
        intro a b ha hb hEq
        have haMem : (a, "Female".data) ∈ catalog :=
          candidate_ids_mem (minVoice_min ha).1
        have hbMem : (b, "Male".data) ∈ catalog :=
          candidate_ids_mem (minVoice_min hb).1
        subst hEq
        have := hg (a, "Female".data) haMem (a, "Male".data) hbMem rfl
        simp at this
      rw [hv]
      rw [(choose_voices_lex_min catalog).1]
      cases hF : minVoice (candidate_ids catalog "Female".data) with
      | none =>
        cases hM : minVoice (candidate_ids catalog "Male".data) with
        | none => simp [List.filterMap, hF, hM]
        | some b => simp [List.filterMap, hF, hM]
      | some a =>
        cases hM : minVoice (candidate_ids catalog "Male".data) with
        | none => simp [List.filterMap, hF, hM]
        | some b =>
          have hab : a ≠ b := hchoose a b hF hM
          simp [List.filterMap, hF, hM, hab]
    · rw [hv]
      rw [(choose_voices_lex_min catalog).1]
      cases hF : minVoice (candidate_ids catalog "Female".data) with
      | none =>
        cases hM : minVoice (candidate_ids catalog "Male".data) with
        | none => simp [List.filterMap, hF, hM]
        | some b => simp [List.filterMap, hF, hM]
      | some a =>
        cases hM : minVoice (candidate_ids catalog "Male".data) with
        | none => simp [List.filterMap, hF, hM]
        | some b => simp [List.filterMap, hF, hM]
    · intro response
      rw [hv]
      simp [voices_method, cacheInsert_lookup]

/-- Witness for resolver_nodup_bounded_stable: the empty cache, a concrete
two-voice catalog with distinct ids, and a later call whose backend answer
would differ; the cache-miss and distinct-gender hypotheses are discharged
by evaluation and the later-call quantifier is instantiated at a concrete
backend error. -/
theorem resolver_nodup_bounded_stable_witness :
    ((voices_method [] "en-US".data
        (Except.ok [("Joanna".data, "Female".data), ("Matthew".data, "Male".data)])).2).Nodup ∧
    (voices_method [] "en-US".data
        (Except.ok [("Joanna".data, "Female".data), ("Matthew".data, "Male".data)])).2.length ≤ 2 ∧
    voices_method (voices_method [] "en-US".data
        (Except.ok [("Joanna".data, "Female".data), ("Matthew".data, "Male".data)])).1
        "en-US".data (Except.error "e".data) =
      ((voices_method [] "en-US".data
        (Except.ok [("Joanna".data, "Female".data), ("Matthew".data, "Male".data)])).1,
        (voices_method [] "en-US".data
        (Except.ok [("Joanna".data, "Female".data), ("Matthew".data, "Male".data)])).2) := by
  have h := resolver_nodup_bounded_stable [] "en-US".data
    [("Joanna".data, "Female".data), ("Matthew".data, "Male".data)] (by decide)
  exact ⟨h.1 (by decide), h.2.1, h.2.2 (Except.error "e".data)⟩

/-- Claim C8: for an uncached language, a successful backend fetch reporting
zero voices caches the empty list and returns it, and every later call for
that language returns the cached empty list without reaching the fetch; a
backend error returns the empty list without writing anything to the cache,
so a later call for the same language reaches the fetch again. -/
theorem voice_cache_empty_vs_error (cache : VoiceCache) (lang : List Char)
    (hmiss : cache.lookup lang = none) :
    (voices_method cache lang (Except.ok [])).2 = [] ∧
    ((voices_method cache lang (Except.ok [])).1).lookup lang = some [] ∧
    (∀ response,
      voices_method (voices_method cache lang (Except.ok [])).1 lang response =
        ((voices_method cache lang (Except.ok [])).1, []) ∧
      did_fetch (voices_method cache lang (Except.ok [])).1 lang = false) ∧
    ∀ e, voices_method cache lang (Except.error e) = (cache, []) ∧
      did_fetch cache lang = true := by
  have hok : voices_method cache lang (Except.ok []) =
      (cacheInsert (cacheInsert cache lang []) lang [], []) := by
    simp [voices_method, hmiss, fetch_voices]
  refine ⟨by rw [hok], ?_, ?_, ?_⟩
  · rw [hok]
    exact cacheInsert_lookup _ _ _
  · intro response
    rw [hok]
    constructor
    · simp [voices_method, cacheInsert_lookup]
    · simp [did_fetch, cacheInsert_lookup]
  · intro e
    exact ⟨by simp [voices_method, hmiss, fetch_voices], by simp [did_fetch, hmiss]⟩

/-- Witness for voice_cache_empty_vs_error: the empty cache and a concrete
language code; the later-call quantifiers are instantiated with a nonempty
backend answer and a concrete error. -/
theorem voice_cache_empty_vs_error_witness :
    (voices_method [] "ru-RU".data (Except.ok [])).2 = [] ∧
    ((voices_method [] "ru-RU".data (Except.ok [])).1).lookup "ru-RU".data = some [] ∧
    (voices_method (voices_method [] "ru-RU".data (Except.ok [])).1 "ru-RU".data
        (Except.ok [("Tatyana".data, "Female".data)]) =
      ((voices_method [] "ru-RU".data (Except.ok [])).1, []) ∧
      did_fetch (voices_method [] "ru-RU".data (Except.ok [])).1 "ru-RU".data = false) ∧
    (voices_method [] "ru-RU".data (Except.error "boom".data) = (([] : VoiceCache), []) ∧
      did_fetch ([] : VoiceCache) "ru-RU".data = true) := by
  have h := voice_cache_empty_vs_error [] "ru-RU".data (by decide)
  exact ⟨h.1, h.2.1, h.2.2.1 (Except.ok [("Tatyana".data, "Female".data)]),
    h.2.2.2 "boom".data⟩

/-- Model of two concurrent PollySynthesizer.voices calls for the same
language code. Each call executes: (1) an unlocked cache lookup, and (2) on
a miss, a lock-protected fetch-and-write; there is no second lookup under
the lock, so a call reaches the backend fetch exactly when its step (1)
missed. The population lock serializes the two step (2) sections, thread 1
first. The schedule flag tells whether thread 2's unlocked lookup ran before
thread 1 wrote the cache (true: both lookups see the original cache). The
value is the number of backend fetches performed by the two calls. -/
def concurrent_fetch_count (cache : VoiceCache) (lang : List Char)
    (response1 : Except (List Char) (List (List Char × List Char)))
    (secondReadsBeforeFirstWrites : Bool) : Nat :=
  (if did_fetch cache lang then 1 else 0) +
    (if secondReadsBeforeFirstWrites then
      (if did_fetch cache lang then 1 else 0)
    else
      (if did_fetch (voices_method cache lang response1).1 lang then 1 else 0))

/-- Claim C10 counterexample: with an empty cache and a successful backend
answer, the interleaving in which both calls pass their cache check before
either populates the cache performs two backend fetches, not one: the code
never re-checks the cache after acquiring the lock. -/
theorem concurrent_single_fetch_counterexample :
    concurrent_fetch_count [] "en-US".data
        (Except.ok [("Joanna".data, "Female".data)]) true = 2 ∧
    concurrent_fetch_count [] "en-US".data
        (Except.ok [("Joanna".data, "Female".data)]) true ≠ 1 := by
  constructor
  · decide
  · decide

/-- Claim C10 (amended): two concurrent calls for the same uncached language
perform at most two backend fetches, never more: when the second call's
cache check runs before the first call's write, both calls fetch (the lock
only serializes the fetches); when the second call's check runs after a
successful population by the first, the second observes the cached result
and exactly one fetch happens. -/
theorem concurrent_fetch_bound (cache : VoiceCache) (lang : List Char)
    (response1 : Except (List Char) (List (List Char × List Char)))
    (hmiss : cache.lookup lang = none) :
    concurrent_fetch_count cache lang response1 true = 2 ∧
    (∀ catalog, response1 = Except.ok catalog →
      concurrent_fetch_count cache lang response1 false = 1) ∧
    ∀ e, response1 = Except.error e →
      concurrent_fetch_count cache lang response1 false = 2 := by
  refine ⟨?_, ?_, ?_⟩
  · simp [concurrent_fetch_count, did_fetch, hmiss]
  · rintro catalog rfl
    by_cases hcat : catalog.isEmpty
    · have hc : catalog = [] := by
        cases catalog with
        | nil => rfl
        | cons p ps => simp [List.isEmpty] at hcat
      subst hc
      simp [concurrent_fetch_count, did_fetch, hmiss, voices_method, fetch_voices,
        cacheInsert_lookup]
    · simp [concurrent_fetch_count, did_fetch, hmiss, voices_method, fetch_voices,
        hcat, cacheInsert_lookup]
  · rintro e rfl
    simp [concurrent_fetch_count, did_fetch, hmiss, voices_method, fetch_voices]

/-- Witness for concurrent_fetch_bound: the empty cache, a concrete language
and a successful one-voice backend answer; the error case is instantiated
separately inside the amended theorem at a concrete error by a second use of
the hypothesis is not needed since the response is fixed to a success. -/
theorem concurrent_fetch_bound_witness :
    concurrent_fetch_count [] "en-GB".data
        (Except.ok [("Amy".data, "Female".data)]) true = 2 ∧
    concurrent_fetch_count [] "en-GB".data
        (Except.ok [("Amy".data, "Female".data)]) false = 1 := by
  have h := concurrent_fetch_bound [] "en-GB".data
    (Except.ok [("Amy".data, "Female".data)]) (by decide)
  exact ⟨h.1, h.2.1 [("Amy".data, "Female".data)] rfl⟩

/-- Telegram InlineQueryResultVoice as built by __synthesize__ in
src/commands/synthesize_inline.py: an id, a voice url, and a title. -/
structure InlineResultVoice where
  id : List Char
  voice_url : List Char
  title : List Char
deriving DecidableEq

/-- The per-voice unit of work __synthesize_request__: synthesize, then
transcode, then upload, inside one try/except. Each stage of the chain is
modelled by its outcome: the synthesizer raises or returns mp3 bytes, the
transcoder raises or returns a stream, the uploader raises or returns an
optional (objectId, objectUrl) handle. Any exception is caught at the unit
boundary and becomes the absent result; an upload rejection (None) also
becomes the absent result. -/
def synthesize_request (voice : List Char)
    (synthResult : Except (List Char) (List Char))
    (convertResult : List Char → Except (List Char) (List Char))
    (uploadResult : List Char → Except (List Char) (Option (List Char × List Char))) :
    Option (List Char × List Char × List Char) :=
  match synthResult with
  | Except.error _ => none
  | Except.ok voice_bytes =>
    match convertResult voice_bytes with
    | Except.error _ => none
    | Except.ok f =>
      match uploadResult f with
      | Except.error _ => none
      | Except.ok none => none
      | Except.ok (some (object_id, object_url)) => some (object_id, object_url, voice)

/-- The aggregator __synthesize__: walk the completed tasks in completion
order, skip the units whose result is None, and build one response item per
successful unit from its objectId, objectUrl and the title combining the
voice id and the original text. -/
def synthesize_all (completionOrder : List (List Char)) (text : List Char)
    (unitResult : List Char → Option (List Char × List Char)) :
    List InlineResultVoice :=
  completionOrder.filterMap (fun voice =>
    match unitResult voice with
    | none => none
    | some (object_id, object_url) =>
      some ⟨object_id, object_url, voice ++ ":\n".data ++ text⟩)

/-- Claim C4: the per-voice unit of work returns a present result exactly
when every stage of the chain succeeded and the upload was accepted, and the
result is then built from the upload handle and the unit's voice; in every
other case (an exception anywhere in the chain, or an upload rejection) the
unit returns the absent result, so no exception escapes the unit boundary. -/
theorem synthesize_request_no_escape (voice : List Char)
    (synthResult : Except (List Char) (List Char))
    (convertResult : List Char → Except (List Char) (List Char))
    (uploadResult : List Char → Except (List Char) (Option (List Char × List Char))) :
    ∀ t, synthesize_request voice synthResult convertResult uploadResult = some t ↔
      ∃ b f oid url, synthResult = Except.ok b ∧ convertResult b = Except.ok f ∧
        uploadResult f = Except.ok (some (oid, url)) ∧ t = (oid, url, voice) := by
  intro t
  cases hs : synthResult with
  | error e => simp [synthesize_request, hs]
  | ok b =>
    cases hc : convertResult b with
    | error e =>
      simp [synthesize_request, hs, hc]
    | ok f =>
      cases hu : uploadResult f with
      | error e =>
        simp [synthesize_request, hs, hc, hu]
      | ok r =>
        cases r with
        | none =>
          simp [synthesize_request, hs, hc, hu]
        | some p =>
          rcases p with ⟨oid, url⟩
          have hval : synthesize_request voice (Except.ok b) convertResult uploadResult =
              some (oid, url, voice) := by
            simp [synthesize_request, hc, hu]
          rw [hval]
          constructor
          · intro h
            injection h with h
            exact ⟨b, f, oid, url, rfl, hc, hu, h.symm⟩
          · rintro ⟨b', f', oid', url', hb, hf, hu', rfl⟩
            injection hb with hb
            subst hb
            rw [hc] at hf
            injection hf with hf
            subst hf
            rw [hu] at hu'
            injection hu' with hu'
            injection hu' with hu'
            injection hu' with h1 h2
            subst h1
            subst h2
            rfl

/-- Claim C3: whatever order the units complete in, the aggregator's answer
consists of exactly the response items of the units that succeeded, each
built from that unit's objectId, objectUrl and the title combining the voice
id and the original text; if every unit fails, or the voice list is empty,
the answer is the empty result set, not an error. -/
theorem synthesize_all_partial_success (voices completionOrder : List (List Char))
    (text : List Char) (unitResult : List Char → Option (List Char × List Char))
    (hperm : List.Perm completionOrder voices) :
    List.Perm (synthesize_all completionOrder text unitResult)
      (voices.filterMap (fun voice =>
        match unitResult voice with
        | none => none
        | some (object_id, object_url) =>
          some ⟨object_id, object_url, voice ++ ":\n".data ++ text⟩)) ∧
    ((∀ v ∈ voices, unitResult v = none) →
      synthesize_all completionOrder text unitResult = []) ∧
    (voices = [] → synthesize_all completionOrder text unitResult = []) := by
  refine ⟨hperm.filterMap _, ?_, ?_⟩
  · intro hall
    apply List.filterMap_eq_nil_iff.mpr
    intro v hv
    have : unitResult v = none := hall v (hperm.mem_iff.mp hv)
    simp [this]
  · intro hv
    subst hv
    have : completionOrder = [] := hperm.eq_nil
    subst this
    rfl

/-- Witness for synthesize_all_partial_success: three voices of which one
fails, completing in a different order than submitted; the permutation and
total-failure hypotheses are discharged on concrete inputs. -/
theorem synthesize_all_partial_success_witness :
    List.Perm
      (synthesize_all ["Maxim".data, "Joanna".data, "Matthew".data] "hi".data
        (fun v => if v == "Maxim".data then none else some (v ++ "-id".data, v ++ "-url".data)))
      (["Joanna".data, "Matthew".data, "Maxim".data].filterMap (fun voice =>
        match (fun v => if v == "Maxim".data then none
            else some (v ++ "-id".data, v ++ "-url".data)) voice with
        | none => none
        | some (object_id, object_url) =>
          some ⟨object_id, object_url, voice ++ ":\n".data ++ "hi".data⟩)) ∧
    synthesize_all ["Maxim".data, "Joanna".data, "Matthew".data] "hi".data
        (fun v => if v == "Maxim".data then none
          else some (v ++ "-id".data, v ++ "-url".data)) =
      [⟨"Joanna-id".data, "Joanna-url".data, "Joanna:\nhi".data⟩,
        ⟨"Matthew-id".data, "Matthew-url".data, "Matthew:\nhi".data⟩] := by
  have h := synthesize_all_partial_success
    ["Joanna".data, "Matthew".data, "Maxim".data]
    ["Maxim".data, "Joanna".data, "Matthew".data] "hi".data
    (fun v => if v == "Maxim".data then none
      else some (v ++ "-id".data, v ++ "-url".data))
    (by decide)
  exact ⟨h.1, by decide⟩

/-- One S3 put request as issued by S3FileUploader.upload: target bucket,
object key, and content type. -/
structure PutRequest where
  bucket : List Char
  key : List Char
  contentType : List Char
deriving DecidableEq

/-- S3FileUploader.upload from src/fileuploader/s3fileploader.py. The
freshly generated unique identifier (uuid4().hex) is the object_id
parameter; the S3 client upload_fileobj call is modelled by its outcome as a
function of the request issued. The object is stored under the key
object_id + ".ogg" with the fixed content type audio/ogg; on success the
public url is derived from the bucket and the key; a ClientError from the
storage backend is caught and turned into None. -/
def s3_upload (s3_bucket : List Char) (object_id : List Char)
    (putObject : PutRequest → Except (List Char) Unit) :
    Option (List Char × List Char) :=
  let object_name := object_id ++ ".ogg".data
  match putObject ⟨s3_bucket, object_name, "audio/ogg".data⟩ with
  | Except.error _ => none
  | Except.ok _ =>
    some (object_id,
      "https://".data ++ s3_bucket ++ ".s3.amazonaws.com/".data ++ object_name)

/-- Claim C5: upload issues exactly one put request, for the freshly
generated identifier's key and the fixed content type audio/ogg; if the
storage backend accepts it, upload returns the pair of the object id and the
url derived from bucket and key, and on any storage-backend error it returns
None instead of propagating the error. -/
theorem s3_upload_contract (s3_bucket object_id : List Char)
    (putObject : PutRequest → Except (List Char) Unit) :
    (∀ e, putObject ⟨s3_bucket, object_id ++ ".ogg".data, "audio/ogg".data⟩ =
        Except.error e →
      s3_upload s3_bucket object_id putObject = none) ∧
    (putObject ⟨s3_bucket, object_id ++ ".ogg".data, "audio/ogg".data⟩ =
        Except.ok () →
      s3_upload s3_bucket object_id putObject =
        some (object_id, "https://".data ++ s3_bucket ++
          ".s3.amazonaws.com/".data ++ (object_id ++ ".ogg".data))) := by
  constructor
  · intro e he
    simp [s3_upload, he]
  · intro hok
    simp [s3_upload, hok]

/-- Witness for s3_upload_contract: a concrete bucket and id, once with a
backend that rejects every request and once with one that accepts. -/
theorem s3_upload_contract_witness :
    s3_upload "bkt".data "abc123".data (fun _ => Except.error "denied".data) = none ∧
    s3_upload "bkt".data "abc123".data (fun _ => Except.ok ()) =
      some ("abc123".data, "https://".data ++ "bkt".data ++
        ".s3.amazonaws.com/".data ++ ("abc123".data ++ ".ogg".data)) :=
  ⟨(s3_upload_contract "bkt".data "abc123".data
      (fun _ => Except.error "denied".data)).1 "denied".data rfl,
    (s3_upload_contract "bkt".data "abc123".data (fun _ => Except.ok ())).2 rfl⟩

/-- Modelled from the spec: the Language enumeration of the repository's
synthesizer/synthesizer.py, which is not under src/: a closed set of
supported languages, each identified by a short code; English and Russian
are the two members the code under src/ names (Lang.EN, Lang.RU). -/
inductive Lang where
  | EN
  | RU
deriving DecidableEq

/-- Modelled from the spec: Lang.from_name of the repository's
synthesizer/synthesizer.py, which is not under src/: case-insensitive lookup
of a language by its short code, None for an unknown code. -/
def Lang.from_name (name : List Char) : Option Lang :=
  if name.map Char.toLower == "en".data then some Lang.EN
  else if name.map Char.toLower == "ru".data then some Lang.RU
  else none

/-- Lowercase ascii letter, the character class of the language group in
lang_text_pattern. -/
def isAsciiLower (c : Char) : Bool :=
  'a' ≤ c && c ≤ 'z'

/-- Whitespace as recognized by the regex class \s and by str.strip, for the
ASCII range (the Python versions additionally accept rarer Unicode
whitespace characters, which nothing in the claims exercises). -/
def isPySpace (c : Char) : Bool :=
  c = ' ' || c = '\t' || c = '\n' || c = '\r' || c = '\x0b' || c = '\x0c'

/-- Modelled from the spec: Sanitizer.sanitize of the repository's
util/sanitizer.py, which is not under src/: trim surrounding whitespace and
truncate to the configured maximum length. -/
def sanitize (max_length : Nat) (text : List Char) : List Char :=
  (((text.dropWhile isPySpace).reverse.dropWhile isPySpace).reverse).take max_length

/-- Python re.fullmatch of the compiled pattern lang_text_pattern =
"!([a-z]{2,3})\s(.*)" of src/commands/synthesize_inline.py: a literal bang,
a greedy group of two or three lowercase ascii letters, one whitespace
character, and a text group whose dot cannot match a newline; the whole
input must be consumed. The greedy three-letter attempt is tried first and
the engine backtracks to two letters only while looking for the single
whitespace. Returns (language group, text group) on a match. -/
def lang_text_fullmatch : List Char → Option (List Char × List Char)
  | '!' :: c1 :: c2 :: c3 :: c4 :: rest =>
    if isAsciiLower c1 && isAsciiLower c2 then
      if isAsciiLower c3 && isPySpace c4 && rest.all (fun c => c ≠ '\n') then
        some ([c1, c2, c3], rest)
      else if isPySpace c3 && (c4 :: rest).all (fun c => c ≠ '\n') then
        some ([c1, c2], c4 :: rest)
      else none
    else none
  | ['!', c1, c2, c3] =>
    if isAsciiLower c1 && isAsciiLower c2 && isPySpace c3 then
      some ([c1, c2], [])
    else none
  | _ => none

/-- The __parse_query__ helper of src/commands/synthesize_inline.py:
sanitize the query; if the sanitized text starts with the directive marker,
try the full pattern match and resolve the language group; on success return
the language and the text group, otherwise fall back to no language and the
whole sanitized text. -/
def parse_query (max_length : Nat) (query : List Char) :
    Option Lang × List Char :=
  let text := sanitize max_length query
  if text.head? == some '!' then
    match lang_text_fullmatch text with
    | some (code, rest) =>
      match Lang.from_name code with
      | some language => (some language, rest)
      | none => (none, text)
    | none => (none, text)
  else (none, text)

/-- Claim C6: parsing "!en hello" yields (English, "hello"); parsing
"!xx hello" with an unrecognized code yields no language and the unchanged
sanitized text; parsing "hello" yields no language and "hello"; and in
general whenever the pattern fails to match, or it matches but the language
code is unrecognized, the parser returns no language and the sanitized text,
treating the directive as literal content. -/
theorem parse_query_spec :
    parse_query 255 "!en hello".data = (some Lang.EN, "hello".data) ∧
    parse_query 255 "!xx hello".data = (none, "!xx hello".data) ∧
    parse_query 255 "hello".data = (none, "hello".data) ∧
    ∀ query : List Char,
      (∀ code rest, lang_text_fullmatch (sanitize 255 query) = some (code, rest) →
        Lang.from_name code = none) →
      parse_query 255 query = (none, sanitize 255 query) := by
  refine ⟨by decide, by decide, by decide, ?_⟩
  intro query hcode
  show (if (sanitize 255 query).head? == some '!' then _ else _) = _
  by_cases hbang : ((sanitize 255 query).head? == some '!') = true
  · rw [if_pos hbang]
    cases hfm : lang_text_fullmatch (sanitize 255 query) with
    | none => rfl
    | some p =>
      rcases p with ⟨code, rest⟩
      simp [hcode code rest hfm]
  · rw [if_neg (by simpa using hbang)]

/-- Witness for parse_query_spec: the general fallback instantiated at the
concrete query "!zz q", whose directive code zz is unrecognized. -/
theorem parse_query_spec_witness :
    parse_query 255 "!zz q".data = (none, sanitize 255 "!zz q".data) := by
  apply parse_query_spec.2.2.2
  intro code rest h
  rw [(by decide : lang_text_fullmatch (sanitize 255 "!zz q".data) =
    some (['z', 'z'], ['q']))] at h
  injection h with h
  injection h with h1 h2
  subst h1
  decide

/-- The fixed langdetect.DetectorFactory.seed assigned once in
PollySynthesizer.__init__ so that detection is deterministic across runs. -/
def detector_factory_seed : Nat := 0

/-- PollySynthesizer.__guess_language__: the external langdetect.detect call
is modelled by the code it produced. The detector code mk is substituted by
Russian (mk is not supported by the backend); any other code resolves
through Lang.from_name, and an unknown code falls back to English. -/
def guess_language (detected_code : List Char) : Lang :=
  if detected_code == "mk".data then Lang.RU
  else
    match Lang.from_name detected_code with
    | some language => language
    | none => Lang.EN

/-- Claim C7: language guessing maps the detector code mk to Russian, any
other code with a known Language to that Language, and every other code to
English; the detector factory seed set at construction time is the fixed
value 0 (determinism of the external detector under a fixed seed is the
detector's own property). -/
theorem guess_language_spec :
    guess_language "mk".data = Lang.RU ∧
    (∀ code language, code ≠ "mk".data → Lang.from_name code = some language →
      guess_language code = language) ∧
    (∀ code, code ≠ "mk".data → Lang.from_name code = none →
      guess_language code = Lang.EN) ∧
    detector_factory_seed = 0 := by
  refine ⟨by decide, ?_, ?_, rfl⟩
  · intro code language hne hsome
    simp [guess_language, hne, hsome]
  · intro code hne hnone
    simp [guess_language, hne, hnone]

/-- Witness for guess_language_spec: the known non-mk code en resolves to
English and the unknown code xx falls back to English. -/
theorem guess_language_spec_witness :
    guess_language "en".data = Lang.EN ∧ guess_language "xx".data = Lang.EN :=
  ⟨guess_language_spec.2.1 "en".data Lang.EN (by decide) (by decide),
    guess_language_spec.2.2.1 "xx".data (by decide) (by decide)⟩

/-- One pending job of the Telegram job queue, keyed by its name (the
requesting user's id as a string) and carrying the debounce payload text. -/
structure Job where
  name : List Char
  payload : List Char
deriving DecidableEq

/-- The __remove_active_jobs__ helper of src/commands/synthesize_inline.py:
fetch all jobs registered under the given name, schedule every one of them
for removal, and report whether any existed. The job queue is modelled as
the list of its pending jobs; scheduling removal drops the job. -/
def remove_active_jobs (job_queue : List Job) (job_name : List Char) :
    List Job × Bool :=
  match job_queue.filter (fun j => j.name == job_name) with
  | [] => (job_queue, false)
  | _ :: _ => (job_queue.filter (fun j => !(j.name == job_name)), true)

/-- Modelled from the spec: Validator.validate of the repository's
util/validator.py, which is not under src/: accept sanitized text whose
length lies within the configured minimum and maximum message lengths. -/
def validate (min_length max_length : Nat) (text : List Char) : Bool :=
  decide (min_length ≤ text.length) && decide (text.length ≤ max_length)

/-- The inline-query handler __command__ of src/commands/synthesize_inline.py:
first remove every pending debounce job under the requesting user's key
(remembering whether any existed), then parse the query; if the text fails
validation, schedule nothing (the Bool reports that an empty answer was sent
to retract stale state, which happens exactly when a pending job existed);
otherwise schedule exactly one new delayed job named by the user key. -/
def command (job_queue : List Job) (user_id : List Char) (query : List Char)
    (min_length max_length : Nat) : List Job × Bool :=
  let removed := remove_active_jobs job_queue user_id
  let parsed := parse_query max_length query
  if validate min_length max_length parsed.2 then
    (removed.1 ++ [⟨user_id, parsed.2⟩], false)
  else
    (removed.1, removed.2)

theorem remove_active_jobs_clears (job_queue : List Job) (job_name : List Char) :
    ((remove_active_jobs job_queue job_name).1.filter
      (fun j => j.name == job_name)) = [] := by
  rw [remove_active_jobs]
  cases hf : job_queue.filter (fun j => j.name == job_name) with
  | nil => exact hf
  | cons j js =>
    apply List.filter_eq_nil_iff.mpr
    intro x hx
    have := (List.mem_filter.mp hx).2
    simp at this ⊢
    exact this

/-- Claim C9: handling an inbound query removes every pending debounce job
under the requesting user's key and reports whether any existed, before at
most one new delayed job is scheduled; afterwards the queue holds at most
one job under that key, and every job under that key is the newly scheduled
one, so an earlier pending job can never fire after a later query. -/
theorem command_debounce (job_queue : List Job) (user_id query : List Char)
    (min_length max_length : Nat) :
    ((command job_queue user_id query min_length max_length).1.filter
      (fun j => j.name == user_id)).length ≤ 1 ∧
    (remove_active_jobs job_queue user_id).2 =
      job_queue.any (fun j => j.name == user_id) ∧
    ∀ j ∈ (command job_queue user_id query min_length max_length).1,
      j.name = user_id → j = ⟨user_id, (parse_query max_length query).2⟩ := by
  have hclear := remove_active_jobs_clears job_queue user_id
  refine ⟨?_, ?_, ?_⟩
  · rw [command]
    by_cases hv : validate min_length max_length (parse_query max_length query).2 = true
    · simp only [hv, if_true, List.filter_append, hclear, List.nil_append]
      cases hb : (Job.mk user_id (parse_query max_length query).2).name == user_id with
      | false => simp at hb
      | true => simp [List.filter, hb]
    · simp only [hv, if_false, Bool.false_eq_true, hclear]
      simp
  · rw [remove_active_jobs]
    cases hf : job_queue.filter (fun j => j.name == user_id) with
    | nil =>
      have hall := List.filter_eq_nil_iff.mp hf
      have : job_queue.any (fun j => j.name == user_id) = false := by
        rw [List.any_eq_false]
        intro x hx
        exact hall x hx
      rw [this]
    | cons j js =>
      have hj : j ∈ job_queue.filter (fun x => x.name == user_id) := by
        rw [hf]
        exact List.mem_cons_self j js
      rcases List.mem_filter.mp hj with ⟨hmem, hp⟩
      have : job_queue.any (fun x => x.name == user_id) = true :=
        List.any_eq_true.mpr ⟨j, hmem, hp⟩
      rw [this]
  · intro j hj hname
    rw [command] at hj
    by_cases hv : validate min_length max_length (parse_query max_length query).2 = true
    · rw [if_pos hv] at hj
      rcases List.mem_append.mp hj with hj | hj
      · exfalso
        have : j ∈ (remove_active_jobs job_queue user_id).1.filter
            (fun j => j.name == user_id) :=
          List.mem_filter.mpr ⟨hj, by simp [hname]⟩
        rw [hclear] at this
        exact List.not_mem_nil j this
      · rcases List.mem_singleton.mp hj with rfl
        rfl
    · rw [if_neg hv] at hj
      exfalso
      have : j ∈ (remove_active_jobs job_queue user_id).1.filter
          (fun j => j.name == user_id) :=
        List.mem_filter.mpr ⟨hj, by simp [hname]⟩
      rw [hclear] at this
      exact List.not_mem_nil j this

/-- Witness for command_debounce: a queue holding an older pending job for
user 1 and one for user 2; the query "hi" passes validation, the older job
for user 1 is removed and replaced by the new one. -/
theorem command_debounce_witness :
    ((command [⟨"1".data, "old".data⟩, ⟨"2".data, "x".data⟩] "1".data "hi".data
        1 255).1.filter (fun j => j.name == "1".data)).length ≤ 1 ∧
    (remove_active_jobs [⟨"1".data, "old".data⟩, ⟨"2".data, "x".data⟩]
        "1".data).2 = true ∧
    (Job.mk "1".data "hi".data) = ⟨"1".data, (parse_query 255 "hi".data).2⟩ := by
  have h := command_debounce [⟨"1".data, "old".data⟩, ⟨"2".data, "x".data⟩]
    "1".data "hi".data 1 255
  refine ⟨h.1, ?_, ?_⟩
  · rw [h.2.1]
    decide
  · exact h.2.2 ⟨"1".data, "hi".data⟩ (by decide) rfl
